import Mathlib

set_option maxHeartbeats 1000000
set_option maxRecDepth 4000

namespace PriceSavvy

attribute [local semireducible] Rat.mul Rat.add Rat.sub Rat.inv

/-- Result of a Python function call: a normal return value, or a raised
exception (e.g. ValueError escaping from float()). -/
inductive PyResult (α : Type) where
  | ok (a : α)
  | exn
deriving DecidableEq, Repr

/-- Map over the normal-return case of a PyResult. -/
def PyResult.map {α β : Type} (f : α → β) : PyResult α → PyResult β
  | .ok a => .ok (f a)
  | .exn => .exn

/-- A dynamically typed field value as it arrives from a scraper: either a
number (Python int/float, modelled as a rational) or a string. -/
inductive PyVal where
  | num (q : ℚ)
  | str (s : String)
deriving DecidableEq, Repr

/-- Characters matched by the regex character class [\d.] . -/
def isDigitDot (c : Char) : Bool := c.isDigit || c == '.'

/-- Python \s whitespace characters (ASCII model). -/
def pyIsSpace (c : Char) : Bool :=
  c == ' ' || c == '\t' || c == '\n' || c == '\r' || c == '\x0b' || c == '\x0c'

/-- Numeric value of a list of decimal digit characters (most significant first). -/
def digitsVal (l : List Char) : ℕ := l.foldl (fun a c => 10 * a + (c.toNat - 48)) 0

/-- Python float() restricted to strings drawn from the class [\d.]+ (the only
strings the rating/price regexes can capture): defined iff the string has at
most one dot and at least one digit; otherwise float() raises ValueError,
modelled as none. -/
def pyFloat (l : List Char) : Option ℚ :=
  if l.all isDigitDot ∧ l.count '.' ≤ 1 ∧ l.any Char.isDigit then
    let intPart := l.takeWhile (fun c => c ≠ '.')
    let fracPart := (l.dropWhile (fun c => c ≠ '.')).drop 1
    some ((digitsVal intPart : ℚ) + (digitsVal fracPart : ℚ) / (10 : ℚ) ^ fracPart.length)
  else none

/-- Leftmost match of the regex ([\d.]+)% : scan the string keeping the current
run of digit/dot characters; a percent sign right after a nonempty run captures
that run as group 1. -/
def findPercentAux : List Char → List Char → Option (List Char)
  | [], _ => none
  | c :: cs, run =>
    if isDigitDot c then findPercentAux cs (c :: run)
    else if c = '%' ∧ run ≠ [] then some run.reverse
    else findPercentAux cs []

/-- The literal alternative "out of" of the rating regex. -/
def litOutOf : List Char := ['o', 'u', 't', ' ', 'o', 'f']

/-- After a digit/dot run, match the tail \s*(?:out of|/)\s*([\d.]+) of the
"X out of Y" rating regex, returning group 2. -/
def outOfTail (l : List Char) : Option (List Char) :=
  let l1 := l.dropWhile pyIsSpace
  let rest? : Option (List Char) :=
    if litOutOf.isPrefixOf l1 then some (l1.drop 6)
    else
      match l1 with
      | '/' :: r => some r
      | _ => none
  match rest? with
  | none => none
  | some r =>
    let g2 := (r.dropWhile pyIsSpace).takeWhile isDigitDot
    if g2 = [] then none else some g2

/-- Leftmost match of ([\d.]+)\s*(?:out of|/)\s*([\d.]+) : at each digit/dot run
try to match the tail after the run; both capture groups are returned.
(Positions inside a run see the same tail, so re-trying from the next character
after a failure is equivalent to skipping the whole run.) -/
def findOutOfAux : List Char → Option (List Char × List Char)
  | [] => none
  | c :: cs =>
    if isDigitDot c then
      match outOfTail (cs.dropWhile isDigitDot) with
      | some g2 => some (c :: cs.takeWhile isDigitDot, g2)
      | none => findOutOfAux cs
    else findOutOfAux cs

/-- Leftmost match of [\d.]+ : the maximal digit/dot run starting at the first
digit/dot character. -/
def findNumRun : List Char → Option (List Char)
  | [] => none
  | c :: cs => if isDigitDot c then some (c :: cs.takeWhile isDigitDot) else findNumRun cs

/-- normalize_rating from app/utils/normalizer.py: standardize a rating to the
0-5 scale, or none when absent/unparseable.  Falsy inputs (the number 0, the
empty string) return none; numeric inputs are rescaled from a 10-point scale
when in (5,10], from a percentage when in (10,100], and clamped to [0,5]
otherwise; string inputs are tried against the percentage regex, the
"X out of Y" regex, and finally a bare numeric run.  float() failures in the
first two branches are uncaught (PyResult.exn); in the last branch the
exception is caught and none is returned.  (The unused max_rating parameter of
the source is omitted.) -/
def normalize_rating (rating : PyVal) : PyResult (Option ℚ) :=
  match rating with
  | .num q =>
    if q = 0 then .ok none
    else if 5 < q then
      if q ≤ 10 then .ok (some (q / 10 * 5))
      else if q ≤ 100 then .ok (some (q / 100 * 5))
      else .ok (some (min 5 (max 0 q)))
    else .ok (some (min 5 (max 0 q)))
  | .str s =>
    if s = "" then .ok none
    else
      match (if s.data.contains '%' then findPercentAux s.data [] else none) with
      | some g =>
        match pyFloat g with
        | some v => .ok (some (v / 100 * 5))
        | none => .exn
      | none =>
        match findOutOfAux s.data with
        | some (g1, g2) =>
          match pyFloat g1, pyFloat g2 with
          | some r, some m => if 0 < m then .ok (some (r / m * 5)) else .ok none
          | _, _ => .exn
        | none =>
          match findNumRun s.data with
          | some run =>
            match pyFloat run with
            | some r =>
              if 5 < r ∧ r ≤ 10 then .ok (some (r / 10 * 5))
              else .ok (some (min 5 (max 0 r)))
            | none => .ok none
          | none => .ok none

/-- Python str.lower, ASCII model: map A-Z (codes 65-90) to a-z, leave other
characters. -/
def pyLower (c : Char) : Char :=
  if 65 ≤ c.toNat ∧ c.toNat ≤ 90 then Char.ofNat (c.toNat + 32) else c

/-- Characters of the regex class \w (ASCII model): alphanumerics and underscore. -/
def isWordChar (c : Char) : Bool := c.isAlphanum || c == '_'

/-- The STOPWORDS set of app/utils/normalizer.py. -/
def STOPWORDS : List String :=
  ["the", "a", "an", "and", "or", "for", "with", "in", "on", "at",
   "new", "latest", "original", "genuine", "authentic", "official",
   "pack", "set", "combo", "bundle", "piece", "pcs", "unit"]

/-- The brand names of BRAND_PATTERNS (each pattern is \b<brand>\b). -/
def BRANDS : List String :=
  ["apple", "samsung", "sony", "lg", "hp", "dell", "lenovo", "asus", "acer", "msi",
   "nike", "adidas", "puma", "reebok", "boat", "jbl", "bose", "sennheiser"]

/-- re.match of the anchored pattern \b<brand>\b against a token: the token must
start with the brand and the next character, if any, must be a non-word
character (word boundary). -/
def matchBrand (brand : List Char) (tok : List Char) : Bool :=
  brand.isPrefixOf tok &&
    (match tok.drop brand.length with
     | [] => true
     | c :: _ => !(isWordChar c))

/-- The token filter of canonicalize_title: keep a token unless it is a
stopword, except that tokens matching a brand pattern are always kept. -/
def keepToken (tok : List Char) : Bool :=
  !(STOPWORDS.contains (String.mk tok)) || BRANDS.any (fun b => matchBrand b.data tok)

/-- re.sub of [^\w\s] by a space: replace every character that is neither a
word character nor whitespace with a single space. -/
def stripPunct (l : List Char) : List Char :=
  l.map (fun c => if isWordChar c || pyIsSpace c then c else ' ')

/-- Python str.split() (no argument): split on runs of whitespace, dropping
empty chunks.  The accumulator holds the current token reversed. -/
def splitWSAux : List Char → List Char → List (List Char)
  | [], acc => if acc = [] then [] else [acc.reverse]
  | c :: cs, acc =>
    if pyIsSpace c then
      if acc = [] then splitWSAux cs [] else acc.reverse :: splitWSAux cs []
    else splitWSAux cs (c :: acc)

def splitWS (l : List Char) : List (List Char) := splitWSAux l []

/-- Python ' '.join: interleave a single space between the chunks. -/
def joinSpace : List (List Char) → List Char
  | [] => []
  | [t] => t
  | t :: t2 :: ts => t ++ ' ' :: joinSpace (t2 :: ts)

/-- canonicalize_title from app/utils/normalizer.py: lowercase, replace
punctuation by spaces, tokenize on whitespace, drop stopwords (keeping brand
tokens), and rejoin with single spaces.  Empty titles map to the empty
string. -/
def canonicalize_title (title : String) : String :=
  if title = "" then ""
  else String.mk (joinSpace ((splitWS (stripPunct (title.data.map pyLower))).filter keepToken))

/-- Currency symbols scanned by normalize_price, in source priority order. -/
def currencySymbols : List (Char × String) :=
  [('₹', "INR"), ('$', "USD"), ('€', "EUR"), ('£', "GBP"), ('¥', "JPY")]

/-- Currency detection of normalize_price: the first symbol of the priority
list occurring anywhere in the raw string wins, else the caller's default. -/
def detectCurrency (l : List Char) (dflt : String) : String :=
  match currencySymbols.find? (fun p => l.contains p.1) with
  | some p => p.2
  | none => dflt

/-- re.sub of [₹$€£¥,\s] by the empty string. -/
def priceStrip (l : List Char) : List Char :=
  l.filter (fun c =>
    !(c == '₹' || c == '$' || c == '€' || c == '£' || c == '¥' || c == ',' || pyIsSpace c))

/-- normalize_price from app/utils/normalizer.py: numeric inputs pass through
(the falsy 0 case returns the same 0.0); string inputs have currency symbols
detected and stripped, then the first numeric token is parsed, with 0 as the
parse-failure policy. -/
def normalize_price (price : PyVal) (source_currency : String) : ℚ × String :=
  match price with
  | .num q => (q, source_currency)
  | .str s =>
    if s = "" then (0, source_currency)
    else
      match findNumRun (priceStrip s.data) with
      | some run =>
        match pyFloat run with
        | some v => (v, detectCurrency s.data source_currency)
        | none => (0, detectCurrency s.data source_currency)
      | none => (0, detectCurrency s.data source_currency)

/-- Python truthiness of a scraped field value. -/
def pyTruthy : PyVal → Bool
  | .num q => q != 0
  | .str s => s != ""

/-- Decimal digits of a natural number, most significant first. -/
def natDigits (n : ℕ) : List Char := Nat.toDigits 10 n

/-- Python str() of a field value (decimal rendering model for numbers: sign,
integer part, and, for non-integers, a dot followed by the first six decimal
digits; only the leading digit run is ever consumed downstream). -/
def pyStr : PyVal → String
  | .str s => s
  | .num q =>
    let sign := if q < 0 then "-" else ""
    let a := |q|
    let ip := ⌊a⌋.toNat
    let frac := a - ⌊a⌋
    if frac = 0 then sign ++ String.mk (natDigits ip)
    else sign ++ String.mk (natDigits ip) ++ "." ++ String.mk (natDigits ⌊frac * 1000000⌋.toNat)

/-- Leftmost maximal run of decimal digits. -/
def findDigitRun : List Char → Option (List Char)
  | [] => none
  | c :: cs => if c.isDigit then some (c :: cs.takeWhile Char.isDigit) else findDigitRun cs

/-- A raw product record as produced by a scraper (the dictionary keys read by
normalize_product). -/
structure RawProduct where
  price : Option PyVal
  current_price : Option PyVal
  original_price : Option PyVal
  rating : Option PyVal
  reviews : Option PyVal
  rating_count : Option PyVal
  title : Option String
  url : Option String
  image_url : Option String
  availability : Option String
  description : Option String
deriving DecidableEq, Repr

/-- A raw record with every field absent. -/
def emptyRaw : RawProduct :=
  ⟨none, none, none, none, none, none, none, none, none, none, none⟩

/-- A normalized product (the dictionary returned by normalize_product, in
source key order).  original_price keeps its raw falsy value when not
normalized, as in the source. -/
structure NormProduct where
  url : String
  title : String
  canonical_title : String
  source : String
  price : ℚ
  original_price : Option PyVal
  currency : String
  rating : Option ℚ
  rating_count : Option ℕ
  image_url : Option String
  availability : Option String
  description : Option String
deriving DecidableEq, Repr, Inhabited

/-- normalize_rating applied to an optional field (Python None is falsy and
yields None). -/
def normalize_rating_opt : Option PyVal → PyResult (Option ℚ)
  | none => .ok none
  | some v => normalize_rating v

/-- Python `a or b` on two optional field values (`b` defaulting as given). -/
def pyOr (a : Option PyVal) (b : Option PyVal) : Option PyVal :=
  match a with
  | some v => if pyTruthy v then some v else b
  | none => b

/-- The rating-count parse of normalize_product: str() the value, drop commas,
take the first digit run and read it as an integer. -/
def parseRatingCount (v : PyVal) : Option ℕ :=
  match findDigitRun (((pyStr v).data).filter (fun c => c ≠ ',')) with
  | some run => some (digitsVal run)
  | none => none

/-- The price field resolution of normalize_product:
product.get('price') or product.get('current_price', 0). -/
def priceValueOf (product : RawProduct) : PyVal :=
  (pyOr product.price (some (product.current_price.getD (.num 0)))).getD (.num 0)

/-- normalize_product from app/utils/normalizer.py.  A ValueError escaping
from normalize_rating propagates (PyResult.exn). -/
def normalize_product (product : RawProduct) (source : String) : PyResult NormProduct :=
  let pc := normalize_price (priceValueOf product) "INR"
  let original_price : Option PyVal :=
    match product.original_price with
    | some v => if pyTruthy v then some (.num (normalize_price v "INR").1) else some v
    | none => none
  match normalize_rating_opt product.rating with
  | .exn => .exn
  | .ok rating =>
    let rating_count : Option ℕ :=
      match pyOr product.reviews product.rating_count with
      | some v => if pyTruthy v then parseRatingCount v else none
      | none => none
    let title := product.title.getD ""
    .ok ⟨product.url.getD "", title, canonicalize_title title, source, pc.1, original_price,
         pc.2, rating, rating_count, product.image_url, product.availability, product.description⟩

/-- The j2len chain of difflib's find_longest_match: length of the common
suffix of a and b ending at positions i and j, truncated at the window lower
bounds alo and blo. -/
def suffLen (a b : List Char) (alo blo : ℕ) : ℕ → ℕ → ℕ
  | i, j =>
    match a.get? i, b.get? j with
    | some x, some y =>
      if x = y then
        match i, j with
        | i' + 1, j' + 1 =>
          if alo ≤ i' ∧ blo ≤ j' then suffLen a b alo blo i' j' + 1 else 1
        | _, _ => 1
      else 0
    | _, _ => 0

/-- One candidate end position (i, j) of find_longest_match: replace the best
block (besti, bestj, bestsize) only on a strictly longer match, which yields
the earliest (lowest i, then lowest j) longest block, as in difflib. -/
def bestStep (a b : List Char) (alo blo : ℕ) (best : ℕ × ℕ × ℕ) (p : ℕ × ℕ) : ℕ × ℕ × ℕ :=
  let k := suffLen a b alo blo p.1 p.2
  if best.2.2 < k then (p.1 + 1 - k, p.2 + 1 - k, k) else best

/-- find_longest_match on the window a[alo:ahi] x b[blo:bhi] (no junk: for
strings shorter than 200 characters the autojunk heuristic is off, and then
the two extension loops of difflib cannot extend a maximal block). -/
def findBest (a b : List Char) (alo ahi blo bhi : ℕ) : ℕ × ℕ × ℕ :=
  (List.range' alo (ahi - alo)).foldl
    (fun best i =>
      (List.range' blo (bhi - blo)).foldl (fun bst j => bestStep a b alo blo bst (i, j)) best)
    (alo, blo, 0)

/-- Total size of get_matching_blocks: recursively split the window at the
longest match.  The fuel bounds the recursion depth; each level consumes at
least one character of the window, so length a + length b + 1 always
suffices. -/
def matchBlocks (a b : List Char) : ℕ → ℕ → ℕ → ℕ → ℕ → ℕ
  | 0, _, _, _, _ => 0
  | fuel + 1, alo, ahi, blo, bhi =>
    let t := findBest a b alo ahi blo bhi
    if t.2.2 = 0 then 0
    else
      t.2.2 + matchBlocks a b fuel alo t.1 blo t.2.1 +
        matchBlocks a b fuel (t.1 + t.2.2) ahi (t.2.1 + t.2.2) bhi

def matchTotal (a b : List Char) : ℕ :=
  matchBlocks a b (a.length + b.length + 1) 0 a.length 0 b.length

/-- calculate_similarity from app/utils/normalizer.py: 0 when either title is
empty, else SequenceMatcher's measure 2*M/(len(a)+len(b)) where M is the total
matched size. -/
def calculate_similarity (title1 title2 : String) : ℚ :=
  if title1 = "" ∨ title2 = "" then 0
  else 2 * (matchTotal title1.data title2.data : ℚ) / ((title1.data.length + title2.data.length : ℕ) : ℚ)

/-- Inner loop of find_duplicates: scan the indices after the seed, adding
every unvisited index whose canonical title is at least threshold-similar to
the seed's title; returns the absorbed indices and the updated visited set. -/
def collectGroup (ps : List NormProduct) (threshold : ℚ) (titleI : String) :
    List ℕ → List ℕ → List ℕ × List ℕ
  | [], visited => ([], visited)
  | j :: js, visited =>
    if j ∈ visited then collectGroup ps threshold titleI js visited
    else
      if threshold ≤ calculate_similarity titleI (ps.getD j default).canonical_title then
        let r := collectGroup ps threshold titleI js (j :: visited)
        (j :: r.1, r.2)
      else collectGroup ps threshold titleI js visited

/-- Outer loop of find_duplicates: each unvisited index seeds a group; only
groups of size above one are emitted. -/
def findDupsLoop (ps : List NormProduct) (threshold : ℚ) :
    List ℕ → List ℕ → List (List ℕ)
  | [], _ => []
  | i :: rest, visited =>
    if i ∈ visited then findDupsLoop ps threshold rest visited
    else
      let r := collectGroup ps threshold (ps.getD i default).canonical_title
        (List.range' (i + 1) (ps.length - (i + 1))) (i :: visited)
      if 1 < (i :: r.1).length then (i :: r.1) :: findDupsLoop ps threshold rest r.2
      else findDupsLoop ps threshold rest r.2

/-- find_duplicates from app/utils/normalizer.py: greedy single-pass
clustering by similarity to the group seed; returns the duplicate groups
(index lists) of size above one, in seed order. -/
def find_duplicates (ps : List NormProduct) (threshold : ℚ) : List (List ℕ) :=
  findDupsLoop ps threshold (List.range ps.length) []

/-- One entry of the merged 'sources' list. -/
structure SourceEntry where
  source : String
  url : String
  price : ℚ
  availability : Option String
deriving DecidableEq, Repr

/-- An aggregated product: a normalized product enriched with its contributing
sources and the lowest observed price. -/
structure AggProduct extends NormProduct where
  sources : List SourceEntry
  best_price : ℚ
deriving DecidableEq, Repr

def mkSourceEntry (p : NormProduct) : SourceEntry := ⟨p.source, p.url, p.price, p.availability⟩

/-- Count of values of the normalized dict that are neither None nor the empty
string (the price float always counts). -/
def countFilled (p : NormProduct) : ℕ :=
  (if p.url = "" then 0 else 1) + (if p.title = "" then 0 else 1) +
  (if p.canonical_title = "" then 0 else 1) + (if p.source = "" then 0 else 1) + 1 +
  (match p.original_price with
   | none => 0
   | some (.str s) => if s = "" then 0 else 1
   | some (.num _) => 1) +
  (if p.currency = "" then 0 else 1) +
  (match p.rating with | none => 0 | some _ => 1) +
  (match p.rating_count with | none => 0 | some _ => 1) +
  (match p.image_url with | none => 0 | some s => if s = "" then 0 else 1) +
  (match p.availability with | none => 0 | some s => if s = "" then 0 else 1) +
  (match p.description with | none => 0 | some s => if s = "" then 0 else 1)

/-- The data-quality key of merge_duplicates: (filled-field count, rating
count or 0). -/
def qualityKey (p : NormProduct) : ℕ × ℕ := (countFilled p, p.rating_count.getD 0)

/-- Strict lexicographic comparison of quality keys. -/
def keyLt (x y : ℕ × ℕ) : Bool := x.1 < y.1 || (x.1 == y.1 && x.2 < y.2)

/-- Python max with the quality key: the first element attaining the maximal
key (replacement only on strictly greater). -/
def selectBest : NormProduct → List NormProduct → NormProduct
  | best, [] => best
  | best, p :: rest => selectBest (if keyLt (qualityKey best) (qualityKey p) then p else best) rest

/-- Python min over a nonempty sequence of rationals (head seeds the fold). -/
def pyMinQ : ℚ → List ℚ → ℚ
  | x, [] => x
  | x, y :: ys => pyMinQ (min x y) ys

/-- Merge one duplicate group: copy the best-quality member, attach one source
entry per member (original order) and the minimum price of the group. -/
def mergeGroup (ps : List NormProduct) (group : List ℕ) : AggProduct :=
  let gps := group.map (fun i => ps.getD i default)
  match gps with
  | [] => ⟨default, [], 0⟩
  | g0 :: grest =>
    ⟨selectBest g0 grest, (g0 :: grest).map mkSourceEntry, pyMinQ g0.price (grest.map NormProduct.price)⟩

/-- A non-duplicate product passes through with itself as single source. -/
def mkSingleton (p : NormProduct) : AggProduct := ⟨p, [mkSourceEntry p], p.price⟩

/-- merge_duplicates from app/utils/normalizer.py: merged duplicate groups in
seed order, followed by the untouched singletons in original order. -/
def merge_duplicates (ps : List NormProduct) (threshold : ℚ) : List AggProduct :=
  if ps = [] then []
  else
    let dupGroups := find_duplicates ps threshold
    let mergedIdx := dupGroups.flatten
    dupGroups.map (mergeGroup ps) ++
      (((List.range ps.length).filter (fun i => !(mergedIdx.contains i))).map
        (fun i => mkSingleton (ps.getD i default)))

/-- A test product with only a canonical title. -/
def tp (ct : String) : NormProduct := ⟨"", "", ct, "", 0, none, "", none, none, none, none, none⟩

example : calculate_similarity "aabbccdd" "aabb" = 2 / 3 := by decide
example : calculate_similarity "aabb" "ccdd" = 0 := by decide
example : calculate_similarity "aabb" "aabb" = 1 := by decide
example :
    find_duplicates [tp "aabbccdd", tp "aabb", tp "aabb", tp "ccdd", tp "ccdd"] (1 / 2) =
      [[0, 1, 2, 3, 4]] := by decide
example :
    find_duplicates [tp "aabbccdd", tp "aabb", tp "aabb", tp "ccdd", tp "ccdd"] (3 / 4) =
      [[1, 2], [3, 4]] := by decide

/-- The sliding-window rate limiter state (app/utils/rate_limiter.py): the
configured per-minute limit and, per client id, the recorded request
timestamps (absent clients map to the empty list).  Wall-clock reads
(time.time()) are modelled by an explicit now argument. -/
structure RateLimiter where
  requests_per_minute : ℕ
  requests : String → List ℚ

/-- The fixed window length (self._window_seconds = 60). -/
def windowSeconds : ℚ := 60

/-- RateLimiter.is_allowed: prune the client's timestamps to the trailing
window, admit and record the call iff the pruned count is below the limit. -/
def RateLimiter.is_allowed (rl : RateLimiter) (client : String) (now : ℚ) : Bool × RateLimiter :=
  let pruned := (rl.requests client).filter (fun ts => now - windowSeconds < ts)
  if pruned.length < rl.requests_per_minute then
    (true, ⟨rl.requests_per_minute, fun c => if c = client then pruned ++ [now] else rl.requests c⟩)
  else
    (false, ⟨rl.requests_per_minute, fun c => if c = client then pruned else rl.requests c⟩)

/-- RateLimiter.get_reset_time: the minimum recorded timestamp plus the window
length, or none when the client has no recorded entries. -/
def RateLimiter.get_reset_time (rl : RateLimiter) (client : String) : Option ℚ :=
  match rl.requests client with
  | [] => none
  | t :: ts => some (pyMinQ t ts + windowSeconds)

/-- A freshly constructed limiter: no recorded requests. -/
def initLimiter (n : ℕ) : RateLimiter := ⟨n, fun _ => []⟩

/-- Run a sequence of is_allowed calls for one client at the given times,
collecting the returned booleans. -/
def allowSeq (rl : RateLimiter) (client : String) : List ℚ → List Bool × RateLimiter
  | [] => ([], rl)
  | t :: ts =>
    let r := rl.is_allowed client t
    let rest := allowSeq r.2 client ts
    (r.1 :: rest.1, rest.2)

/-- One cache entry of TTLCache (app/utils/cache.py). -/
structure CacheEntry (α : Type) where
  value : α
  expires_at : ℚ
  created_at : ℚ
deriving DecidableEq, Repr

/-- The TTLCache state: capacity, default TTL, and the entries as an
insertion-ordered association list (Python dicts preserve insertion order;
assignment to an existing key keeps its position). -/
structure TTLCache (α : Type) where
  max_size : ℕ
  ttl_seconds : ℚ
  cache : List (String × CacheEntry α)
deriving DecidableEq, Repr

/-- A freshly constructed cache. -/
def TTLCache.empty (α : Type) (maxSize : ℕ) (ttl : ℚ) : TTLCache α := ⟨maxSize, ttl, []⟩

def hasKey {α : Type} (l : List (String × CacheEntry α)) (k : String) : Bool :=
  l.any (fun p => p.1 == k)

/-- TTLCache.get: a hit past its expires_at is deleted and reported as a
miss. -/
def TTLCache.get {α : Type} (c : TTLCache α) (key : String) (now : ℚ) :
    Option α × TTLCache α :=
  match c.cache.find? (fun p => p.1 == key) with
  | none => (none, c)
  | some p =>
    if p.2.expires_at < now then
      (none, ⟨c.max_size, c.ttl_seconds, c.cache.eraseP (fun q => q.1 == key)⟩)
    else (some p.2.value, c)

/-- Python min(keys, key=created_at) over the entries in insertion order:
first entry attaining the minimal created_at (replacement only on strictly
smaller). -/
def argminCreated {α : Type} : List (String × CacheEntry α) → Option (String × CacheEntry α)
  | [] => none
  | e :: rest =>
    some (rest.foldl (fun best p => if p.2.created_at < best.2.created_at then p else best) e)

/-- TTLCache._evict_oldest: delete the entry with the oldest created_at (no-op
on an empty cache). -/
def evictOldest {α : Type} (l : List (String × CacheEntry α)) : List (String × CacheEntry α) :=
  match argminCreated l with
  | none => l
  | some e => l.eraseP (fun p => p.1 == e.1)

/-- Python dict assignment: replace in place when the key exists, else append. -/
def insertEntry {α : Type} (l : List (String × CacheEntry α)) (k : String) (e : CacheEntry α) :
    List (String × CacheEntry α) :=
  if hasKey l k then l.map (fun p => if p.1 == k then (k, e) else p) else l ++ [(k, e)]

/-- TTLCache.set: evict the oldest entry first when the cache is full and the
key is new, then write the entry with expires_at = now + (ttl override or
default). -/
def TTLCache.set {α : Type} (c : TTLCache α) (key : String) (value : α) (ttl : Option ℚ)
    (now : ℚ) : TTLCache α :=
  let cache1 :=
    if c.max_size ≤ c.cache.length ∧ hasKey c.cache key = false then evictOldest c.cache
    else c.cache
  ⟨c.max_size, c.ttl_seconds, insertEntry cache1 key ⟨value, now + ttl.getD c.ttl_seconds, now⟩⟩

/-- TTLCache.delete. -/
def TTLCache.deleteKey {α : Type} (c : TTLCache α) (key : String) : Bool × TTLCache α :=
  if hasKey c.cache key then
    (true, ⟨c.max_size, c.ttl_seconds, c.cache.eraseP (fun p => p.1 == key)⟩)
  else (false, c)

/-- One public cache operation, with the wall-clock time of the call where the
source reads time.time(). -/
inductive CacheOp (α : Type) where
  | get (key : String) (now : ℚ)
  | set (key : String) (value : α) (ttl : Option ℚ) (now : ℚ)
  | del (key : String)
  | clear
deriving Repr

/-- State transition of one cache operation. -/
def applyOp {α : Type} (c : TTLCache α) : CacheOp α → TTLCache α
  | .get k now => (c.get k now).2
  | .set k v ttl now => c.set k v ttl now
  | .del k => (c.deleteKey k).2
  | .clear => ⟨c.max_size, c.ttl_seconds, []⟩

/-- Run a sequence of cache operations. -/
def runOps {α : Type} (c : TTLCache α) (ops : List (CacheOp α)) : TTLCache α :=
  ops.foldl applyOp c

/-- One registered scraper of ScraperService: its name and its
supported_domains list. -/
structure ScraperInfo where
  name : String
  domains : List String
deriving DecidableEq, Repr

/-- The scraper registry of ScraperService.__init__, in insertion order, with
each scraper's supported_domains from its class. -/
def scrapers : List ScraperInfo :=
  [⟨"amazon", ["amazon.com", "amazon.in", "amazon.co.uk", "amazon.de"]⟩,
   ⟨"flipkart", ["flipkart.com"]⟩,
   ⟨"myntra", ["myntra.com"]⟩,
   ⟨"ajio", ["ajio.com"]⟩,
   ⟨"croma", ["croma.com"]⟩,
   ⟨"tatacliq", ["tatacliq.com"]⟩,
   ⟨"snapdeal", ["snapdeal.com"]⟩,
   ⟨"jiomart", ["jiomart.com"]⟩,
   ⟨"meesho", ["meesho.com"]⟩]

/-- Python substring containment (the `domain in url` test). -/
def listInfix (sub l : List Char) : Bool :=
  (List.range (l.length + 1)).any (fun i => sub.isPrefixOf (l.drop i))

/-- Python str.lower on a whole string (ASCII model). -/
def strLower (s : String) : String := String.mk (s.data.map pyLower)

/-- BaseScraper.can_handle: some supported domain occurs in the lowercased
URL. -/
def can_handle (domains : List String) (url : String) : Bool :=
  domains.any (fun d => listInfix d.data (strLower url).data)

/-- ScraperService.get_scraper_for_url: first registered scraper whose
can_handle accepts the (pre-lowercased) URL. -/
def get_scraper_for_url (url : String) : Option ScraperInfo :=
  scrapers.find? (fun s => can_handle s.domains (strLower url))

deriving instance DecidableEq for Except

/-- ScraperService.scrape_product, with the network scrape abstracted to the
identity of the selected adapter: the first matching adapter handles the URL,
and an unsupported URL raises ValueError (modelled as Except.error with the
source's message), never returning a partial result. -/
def scrape_product (url : String) : Except String String :=
  match get_scraper_for_url url with
  | some s => .ok s.name
  | none => .error ("URL not supported: " ++ url)

example : scrape_product "https://www.Amazon.in/dp/B0TEST" = .ok "amazon" := by decide
example : (scrape_product "https://example.org/item").isOk = false := by decide
example : (allowSeq (initLimiter 2) "ip1" [0, 10, 20]).1 = [true, true, false] := by decide
example :
    (RateLimiter.is_allowed (allowSeq (initLimiter 2) "ip1" [0, 10, 20]).2 "ip1" 100).1 = true := by
  decide
example : RateLimiter.get_reset_time (allowSeq (initLimiter 2) "ip1" [0, 10, 20]).2 "ip1" =
    some 60 := by decide
example :
    ((TTLCache.empty ℕ 2 300 |>.set "a" 1 none 0 |>.set "b" 2 none 1 |>.set "c" 3 none
      2).cache.map Prod.fst) = ["b", "c"] := by decide

example : canonicalize_title "The Apple iPhone, New!" = "apple iphone" := by decide
example : canonicalize_title "  Sony   WH-1000XM4 " = "sony wh 1000xm4" := by decide
example : normalize_price (.str "₹1,299.00") "INR" = (1299, "INR") := by decide
example : normalize_price (.str "$49.99") "INR" = (4999 / 100, "USD") := by decide
example : normalize_price (.str "oops") "INR" = (0, "INR") := by decide
example :
    (normalize_product { emptyRaw with price := some (.num (-3)), rating := some (.str "600%") }
        "amazon").map NormProduct.price = PyResult.ok (-3) := by
  decide
example : normalize_rating (.str "600%") = .ok (some 30) := by decide

/-! ## Helper lemmas -/

/-- With no digit or dot in the string, the percentage regex cannot match. -/
theorem findPercentAux_none {l : List Char} (h : ∀ c ∈ l, isDigitDot c = false) :
    findPercentAux l [] = none := by
  induction l with
  | nil => rfl
  | cons c cs ih =>
    have hc := h c (List.mem_cons_self c cs)
    rw [findPercentAux, if_neg (by simp [hc]), if_neg (by simp)]
    exact ih fun x hx => h x (List.mem_cons_of_mem _ hx)

/-- With no digit or dot in the string, the "X out of Y" regex cannot match. -/
theorem findOutOfAux_none {l : List Char} (h : ∀ c ∈ l, isDigitDot c = false) :
    findOutOfAux l = none := by
  induction l with
  | nil => rfl
  | cons c cs ih =>
    have hc := h c (List.mem_cons_self c cs)
    rw [findOutOfAux, if_neg (by simp [hc])]
    exact ih fun x hx => h x (List.mem_cons_of_mem _ hx)

/-- With no digit or dot in the string, no bare numeric run exists. -/
theorem findNumRun_none {l : List Char} (h : ∀ c ∈ l, isDigitDot c = false) :
    findNumRun l = none := by
  induction l with
  | nil => rfl
  | cons c cs ih =>
    have hc := h c (List.mem_cons_self c cs)
    rw [findNumRun, if_neg (by simp [hc])]
    exact ih fun x hx => h x (List.mem_cons_of_mem _ hx)

/-- The fold underlying Python min: the result is a lower bound of the seed and
all elements, and is attained by the seed or an element. -/
theorem pyMinQ_spec (x : ℚ) (l : List ℚ) :
    (pyMinQ x l ≤ x ∧ ∀ y ∈ l, pyMinQ x l ≤ y) ∧ (pyMinQ x l = x ∨ pyMinQ x l ∈ l) := by
  induction l generalizing x with
  | nil => simp [pyMinQ]
  | cons y ys ih =>
    obtain ⟨⟨h1, h2⟩, h3⟩ := ih (min x y)
    rw [pyMinQ]
    refine ⟨⟨le_trans h1 (min_le_left x y), ?_⟩, ?_⟩
    · intro z hz
      rcases List.mem_cons.mp hz with rfl | hz
      · exact le_trans h1 (min_le_right x z)
      · exact h2 z hz
    · rcases h3 with h3 | h3
      · rcases min_choice x y with hm | hm
        · exact Or.inl (h3.trans hm)
        · exact Or.inr (List.mem_cons.mpr (Or.inl (h3.trans hm)))
      · exact Or.inr (List.mem_cons.mpr (Or.inr h3))

/-- A successful find? splits the list at the first element satisfying the
predicate. -/
theorem find?_first {α : Type} (p : α → Bool) :
    ∀ (l : List α) (x : α), l.find? p = some x →
      ∃ pre post, l = pre ++ x :: post ∧ p x = true ∧ ∀ y ∈ pre, p y = false := by
  intro l
  induction l with
  | nil => intro x h; simp [List.find?] at h
  | cons a as ih =>
    intro x h
    by_cases hp : p a
    · rw [List.find?_cons_of_pos _ hp] at h
      obtain rfl := Option.some.inj h
      exact ⟨[], as, rfl, hp, by simp⟩
    · rw [List.find?_cons_of_neg _ (by simpa using hp)] at h
      obtain ⟨pre, post, heq, hx, hpre⟩ := ih x h
      refine ⟨a :: pre, post, by rw [heq]; rfl, hx, ?_⟩
      intro y hy
      rcases List.mem_cons.mp hy with rfl | hy
      · simpa using hp
      · exact hpre y hy

/-! ## C1 -/

/-- C1 (amended): rating normalization follows the rescaling rules, with the
correction that a bare numeric input in (10,100] is rescaled as a percentage
(value/100*5) rather than clamped to 5; only bare numeric inputs above 100 and
bare numeric strings above 10 are clamped to 5.  Percentage and "X out of Y"
strings rescale by value/scale*5; bare numbers in (5,10] rescale from a
10-point scale; strings with no digits normalize to none, never 0. -/
theorem c1_rating_normalization :
    normalize_rating (.str "4.2 out of 5") = .ok (some (21 / 5)) ∧
    normalize_rating (.str "84%") = .ok (some (21 / 5)) ∧
    (∀ q : ℚ, 5 < q → q ≤ 10 → normalize_rating (.num q) = .ok (some (q / 10 * 5))) ∧
    (∀ q : ℚ, 10 < q → q ≤ 100 → normalize_rating (.num q) = .ok (some (q / 100 * 5))) ∧
    (∀ q : ℚ, 100 < q → normalize_rating (.num q) = .ok (some 5)) ∧
    normalize_rating (.str "15") = .ok (some 5) ∧
    (∀ s : String, (∀ c ∈ s.data, isDigitDot c = false) →
      normalize_rating (.str s) = .ok none) ∧
    normalize_rating (.str "garbage") = .ok none := by
  refine ⟨by decide, by decide, ?_, ?_, ?_, by decide, ?_, by decide⟩
  · intro q h5 h10
    rw [normalize_rating, if_neg (ne_of_gt (by linarith)), if_pos h5, if_pos h10]
  · intro q h10 h100
    rw [normalize_rating, if_neg (ne_of_gt (by linarith)), if_pos (by linarith),
      if_neg (by linarith), if_pos h100]
  · intro q h100
    rw [normalize_rating, if_neg (ne_of_gt (by linarith)), if_pos (by linarith),
      if_neg (by linarith), if_neg (by linarith), max_eq_right (by linarith),
      min_eq_left (by linarith)]
  · intro s hs
    by_cases hemp : s = ""
    · rw [normalize_rating, if_pos hemp]
    · rw [normalize_rating, if_neg hemp]
      have hp : (if s.data.contains '%' then findPercentAux s.data [] else none) =
          (none : Option (List Char)) := by
        split
        · exact findPercentAux_none hs
        · rfl
      rw [hp, findOutOfAux_none hs, findNumRun_none hs]

/-- Witness for C1: the 10-point rescale clause evaluated at 8.4. -/
theorem c1_rating_normalization_witness :
    (5 : ℚ) < 42 / 5 ∧ (42 / 5 : ℚ) ≤ 10 ∧
      normalize_rating (.num (42 / 5)) = .ok (some (42 / 5 / 10 * 5)) :=
  ⟨by norm_num, by norm_num,
    c1_rating_normalization.2.2.1 (42 / 5) (by norm_num) (by norm_num)⟩

/-- Counterexample for C1 as stated: the bare number 84 is not clamped to 5;
the code rescales it as a percentage to 4.2. -/
theorem c1_counterexample :
    ¬ (∀ q : ℚ, 10 < q → normalize_rating (.num q) = .ok (some 5)) := by
  intro h
  exact absurd (h 84 (by norm_num)) (by decide)

/-! ## C8 -/

/-- C8: scrape_product selects the first registered scraper (in registration
order) whose can_handle accepts the URL, and when no registered scraper's
can_handle accepts the URL it fails with the unsupported-URL rejection
(ValueError in the source), not a partial result. -/
theorem c8_adapter_selection :
    (∀ url name, scrape_product url = .ok name →
      ∃ pre s post, scrapers = pre ++ s :: post ∧ ScraperInfo.name s = name ∧
        can_handle s.domains (strLower url) = true ∧
        ∀ s' ∈ pre, can_handle (ScraperInfo.domains s') (strLower url) = false) ∧
    (∀ url, (∀ s ∈ scrapers, can_handle (ScraperInfo.domains s) (strLower url) = false) →
      scrape_product url = .error ("URL not supported: " ++ url)) := by
  constructor
  · intro url name h
    rw [scrape_product] at h
    cases hf : get_scraper_for_url url with
    | none => rw [hf] at h; exact absurd h (by simp)
    | some s =>
      rw [hf] at h
      obtain ⟨pre, post, heq, hps, hpre⟩ := find?_first _ _ _ hf
      refine ⟨pre, s, post, heq, ?_, hps, fun s' hs' => by simpa using hpre s' hs'⟩
      simpa using h
  · intro url h
    rw [scrape_product, get_scraper_for_url, List.find?_eq_none.mpr]
    intro s hs
    simp [h s hs]

/-- Witness for C8: no scraper handles an unknown host, and the request is
rejected whole. -/
theorem c8_adapter_selection_witness :
    scrape_product "https://example.org/x" = .error "URL not supported: https://example.org/x" :=
  c8_adapter_selection.2 "https://example.org/x" (by decide)

/-! ## C9 -/

/-- C9: for a client with recorded entries, get_reset_time returns the oldest
recorded timestamp of the client's window sequence plus the 60-second window
length; for a client with no recorded entries it returns none. -/
theorem c9_reset_time (rl : RateLimiter) (client : String) :
    (rl.requests client = [] → rl.get_reset_time client = none) ∧
    (rl.requests client ≠ [] →
      ∃ m, m ∈ rl.requests client ∧ (∀ x ∈ rl.requests client, m ≤ x) ∧
        rl.get_reset_time client = some (m + windowSeconds)) := by
  constructor
  · intro h
    rw [RateLimiter.get_reset_time, h]
  · intro h
    rw [RateLimiter.get_reset_time]
    cases hreq : rl.requests client with
    | nil => exact absurd hreq h
    | cons t ts =>
      obtain ⟨⟨h1, h2⟩, h3⟩ := pyMinQ_spec t ts
      refine ⟨pyMinQ t ts, ?_, ?_, rfl⟩
      · rcases h3 with h3 | h3
        · rw [h3]; exact List.mem_cons_self t ts
        · exact List.mem_cons_of_mem _ h3
      · intro x hx
        rcases List.mem_cons.mp hx with rfl | hx
        · exact h1
        · exact h2 x hx

/-- Witness for C9: a concrete window [30, 5, 20] resets at 5 + 60. -/
theorem c9_reset_time_witness :
    ∃ m, m ∈ [(30 : ℚ), 5, 20] ∧ (∀ x ∈ [(30 : ℚ), 5, 20], m ≤ x) ∧
      RateLimiter.get_reset_time ⟨10, fun _ => [30, 5, 20]⟩ "ip" = some (m + windowSeconds) :=
  (c9_reset_time ⟨10, fun _ => [30, 5, 20]⟩ "ip").2 (by simp)

/-! ## C4 -/

/-- Invariant of a run of is_allowed calls within one sliding window: with
pre already recorded for the client (all earlier than the calls, everything
pairwise within the window), the first (limit - pre.length) calls are admitted
and recorded and all later calls are rejected. -/
theorem allowSeq_window (client : String) :
    ∀ (ts pre : List ℚ) (rl : RateLimiter),
      rl.requests client = pre →
      pre.length ≤ rl.requests_per_minute →
      (∀ x ∈ pre, ∀ y ∈ ts, x ≤ y) →
      List.Sorted (· ≤ ·) ts →
      (∀ x ∈ pre ++ ts, ∀ y ∈ pre ++ ts, x - y < windowSeconds) →
      (allowSeq rl client ts).1 =
        List.replicate (min ts.length (rl.requests_per_minute - pre.length)) true ++
          List.replicate (ts.length - (rl.requests_per_minute - pre.length)) false ∧
      (allowSeq rl client ts).2.requests client =
        pre ++ ts.take (rl.requests_per_minute - pre.length) ∧
      (allowSeq rl client ts).2.requests_per_minute = rl.requests_per_minute := by
  intro ts
  induction ts with
  | nil =>
    intro pre rl h1 h2 h3 h4 h5
    simp [allowSeq, h1]
  | cons t ts' ih =>
    intro pre rl h1 h2 h3 h4 h5
    have hfilter : (rl.requests client).filter (fun x => decide (t - windowSeconds < x)) = pre := by
      rw [h1]
      apply List.filter_eq_self.mpr
      intro x hx
      simp only [decide_eq_true_eq]
      have hxy := h5 t (List.mem_append_right _ (List.mem_cons_self _ _))
        x (List.mem_append_left _ hx)
      linarith
    have hsort := List.sorted_cons.mp h4
    by_cases hlt : pre.length < rl.requests_per_minute
    · have hr : rl.is_allowed client t =
          (true, ⟨rl.requests_per_minute,
            fun c => if c = client then pre ++ [t] else rl.requests c⟩) := by
        rw [RateLimiter.is_allowed]
        simp only [hfilter]
        rw [if_pos hlt]
      have h1' : (RateLimiter.mk rl.requests_per_minute
          (fun c => if c = client then pre ++ [t] else rl.requests c)).requests client =
          pre ++ [t] := by simp
      have h2' : (pre ++ [t]).length ≤ rl.requests_per_minute := by
        simp only [List.length_append, List.length_cons, List.length_nil, List.length_singleton]
        omega
      have h3' : ∀ x ∈ pre ++ [t], ∀ y ∈ ts', x ≤ y := by
        intro x hx y hy
        rcases List.mem_append.mp hx with hx | hx
        · exact h3 x hx y (List.mem_cons_of_mem _ hy)
        · obtain rfl : x = t := by simpa using hx
          exact hsort.1 y hy
      have h5' : ∀ x ∈ (pre ++ [t]) ++ ts', ∀ y ∈ (pre ++ [t]) ++ ts',
          x - y < windowSeconds := by
        intro x hx y hy
        apply h5 <;> simp only [List.mem_append, List.mem_cons] at * <;> tauto
      obtain ⟨ih1, ih2, ih3⟩ := ih (pre ++ [t]) _ h1' h2' h3' hsort.2 h5'
      have hK : 1 ≤ rl.requests_per_minute - pre.length := by omega
      refine ⟨?_, ?_, ?_⟩
      · show (rl.is_allowed client t).1 ::
            (allowSeq (rl.is_allowed client t).2 client ts').1 = _
        rw [hr]
        simp only at ih1 ⊢
        rw [ih1]
        simp only [List.length_append, List.length_singleton, List.length_cons]
        have e1 : min (ts'.length + 1) (rl.requests_per_minute - pre.length) =
            min ts'.length (rl.requests_per_minute - (pre.length + 1)) + 1 := by omega
        have e2 : (ts'.length + 1) - (rl.requests_per_minute - pre.length) =
            ts'.length - (rl.requests_per_minute - (pre.length + 1)) := by omega
        rw [e1, e2, List.replicate_succ, List.cons_append]
        norm_num
      · show (allowSeq (rl.is_allowed client t).2 client ts').2.requests client = _
        rw [hr]
        simp only at ih2 ⊢
        rw [ih2]
        simp only [List.length_append, List.length_cons, List.length_nil, List.length_singleton]
        have e3 : rl.requests_per_minute - pre.length =
            (rl.requests_per_minute - (pre.length + 1)) + 1 := by omega
        rw [e3, List.take_succ_cons, List.append_assoc, List.singleton_append]
      · show (allowSeq (rl.is_allowed client t).2 client ts').2.requests_per_minute = _
        rw [hr]
        simpa using ih3
    · have hpre : pre.length = rl.requests_per_minute := by omega
      have hr : rl.is_allowed client t =
          (false, ⟨rl.requests_per_minute,
            fun c => if c = client then pre else rl.requests c⟩) := by
        rw [RateLimiter.is_allowed]
        simp only [hfilter]
        rw [if_neg hlt]
      have h1' : (RateLimiter.mk rl.requests_per_minute
          (fun c => if c = client then pre else rl.requests c)).requests client = pre := by simp
      have h3' : ∀ x ∈ pre, ∀ y ∈ ts', x ≤ y :=
        fun x hx y hy => h3 x hx y (List.mem_cons_of_mem _ hy)
      have h5' : ∀ x ∈ pre ++ ts', ∀ y ∈ pre ++ ts', x - y < windowSeconds := by
        intro x hx y hy
        apply h5 <;> simp only [List.mem_append, List.mem_cons] at * <;> tauto
      obtain ⟨ih1, ih2, ih3⟩ := ih pre _ h1' h2 h3' hsort.2 h5'
      have hK0 : rl.requests_per_minute - pre.length = 0 := by omega
      refine ⟨?_, ?_, ?_⟩
      · show (rl.is_allowed client t).1 ::
            (allowSeq (rl.is_allowed client t).2 client ts').1 = _
        rw [hr]
        simp only at ih1 ⊢
        rw [ih1, hK0]
        simp [List.replicate_succ]
      · show (allowSeq (rl.is_allowed client t).2 client ts').2.requests client = _
        rw [hr]
        simp only at ih2 ⊢
        rw [ih2, hK0]
        simp
      · show (allowSeq (rl.is_allowed client t).2 client ts').2.requests_per_minute = _
        rw [hr]
        simpa using ih3

/-- C4: starting from an empty window with positive limit N, the first N calls
within one 60-second window are all admitted, the (N+1)-th call in the same
window is rejected, and a later call more than 60 seconds after every earlier
call is admitted again. -/
theorem c4_rate_limiter (N : ℕ) (client : String) (ts : List ℚ) (t' : ℚ)
    (hN : 0 < N) (hlen : ts.length = N + 1) (hsorted : List.Sorted (· ≤ ·) ts)
    (hspan : ∀ x ∈ ts, ∀ y ∈ ts, x - y < windowSeconds)
    (hafter : ∀ x ∈ ts, x + windowSeconds < t') :
    (allowSeq (initLimiter N) client ts).1 = List.replicate N true ++ [false] ∧
    ((allowSeq (initLimiter N) client ts).2.is_allowed client t').1 = true := by
  obtain ⟨m1, m2, m3⟩ := allowSeq_window client ts [] (initLimiter N) rfl (by simp)
    (by simp) hsorted (by simpa using hspan)
  constructor
  · rw [m1, hlen]
    show List.replicate (min (N + 1) (N - 0)) true ++
        List.replicate ((N + 1) - (N - 0)) false = _
    have e1 : min (N + 1) (N - 0) = N := by omega
    have e2 : (N + 1) - (N - 0) = 1 := by omega
    rw [e1, e2, List.replicate_one]
  · rw [RateLimiter.is_allowed]
    have hempty : ((allowSeq (initLimiter N) client ts).2.requests client).filter
        (fun x => decide (t' - windowSeconds < x)) = [] := by
      apply List.filter_eq_nil_iff.mpr
      intro x hx
      rw [m2] at hx
      simp only [List.nil_append] at hx
      have hx' : x ∈ ts := List.take_subset _ _ hx
      have := hafter x hx'
      simp only [decide_eq_true_eq]
      linarith
    simp only [hempty, List.length_nil, m3]
    rw [if_pos (by simpa using hN)]

/-- Witness for C4: limit 2, calls at 0, 10, 20 and a later call at 100. -/
theorem c4_rate_limiter_witness :
    (allowSeq (initLimiter 2) "ip1" [0, 10, 20]).1 = List.replicate 2 true ++ [false] ∧
    ((allowSeq (initLimiter 2) "ip1" [0, 10, 20]).2.is_allowed "ip1" 100).1 = true :=
  c4_rate_limiter 2 "ip1" [0, 10, 20] 100 (by norm_num) (by decide)
    (by decide) (by decide) (by decide)

/-! ## C5 and C7 -/

/-- The fold underlying _evict_oldest's min: with a strictly oldest entry
(k0, e0) among the seed and the list, the fold returns (k0, e0). -/
theorem foldl_min_created {α : Type} (k0 : String) (e0 : CacheEntry α) :
    ∀ (l : List (String × CacheEntry α)) (best : String × CacheEntry α),
      (best = (k0, e0) ∨ ((k0, e0) ∈ l ∧ e0.created_at < best.2.created_at)) →
      (∀ p ∈ l, p ≠ (k0, e0) → e0.created_at < p.2.created_at) →
      l.foldl (fun best p => if p.2.created_at < best.2.created_at then p else best) best =
        (k0, e0) := by
  intro l
  induction l with
  | nil =>
    intro best h _
    rcases h with h | ⟨hmem, _⟩
    · exact h
    · simp at hmem
  | cons p ps ih =>
    intro best h hall
    rw [List.foldl_cons]
    have hall' : ∀ x ∈ ps, x ≠ (k0, e0) → e0.created_at < x.2.created_at :=
      fun x hx => hall x (List.mem_cons_of_mem _ hx)
    by_cases hp : p = (k0, e0)
    · subst hp
      rcases h with rfl | ⟨_, hlt⟩
      · rw [if_neg (lt_irrefl _)]
        exact ih _ (Or.inl rfl) hall'
      · rw [if_pos hlt]
        exact ih _ (Or.inl rfl) hall'
    · have hlt' := hall p (List.mem_cons_self _ _) hp
      rcases h with rfl | ⟨hmem, hlt⟩
      · rw [if_neg (by exact not_lt_of_gt hlt')]
        exact ih _ (Or.inl rfl) hall'
      · have hmem' : (k0, e0) ∈ ps := by
          rcases List.mem_cons.mp hmem with heq | hmem'
          · exact absurd heq.symm hp
          · exact hmem'
        refine ih _ (Or.inr ⟨hmem', ?_⟩) hall'
        split
        · exact hlt'
        · exact hlt

/-- With a strictly oldest entry, _evict_oldest's argmin finds exactly it. -/
theorem argminCreated_eq {α : Type} (l : List (String × CacheEntry α)) (k0 : String)
    (e0 : CacheEntry α) (hmem : (k0, e0) ∈ l)
    (hmin : ∀ p ∈ l, p ≠ (k0, e0) → e0.created_at < p.2.created_at) :
    argminCreated l = some (k0, e0) := by
  cases l with
  | nil => simp at hmem
  | cons e rest =>
    rw [argminCreated, Option.some.injEq]
    apply foldl_min_created
    · by_cases he : e = (k0, e0)
      · exact Or.inl he
      · refine Or.inr ⟨?_, hmin e (List.mem_cons_self _ _) he⟩
        rcases List.mem_cons.mp hmem with heq | hmem'
        · exact absurd heq.symm he
        · exact hmem'
    · exact fun p hp => hmin p (List.mem_cons_of_mem _ hp)

/-- The argmin fold stays among the seed and the scanned entries. -/
theorem foldl_min_mem {α : Type} :
    ∀ (l : List (String × CacheEntry α)) (best : String × CacheEntry α),
      l.foldl (fun best p => if p.2.created_at < best.2.created_at then p else best) best = best ∨
      l.foldl (fun best p => if p.2.created_at < best.2.created_at then p else best) best ∈ l := by
  intro l
  induction l with
  | nil => intro best; exact Or.inl rfl
  | cons p ps ih =>
    intro best
    rw [List.foldl_cons]
    rcases ih (if p.2.created_at < best.2.created_at then p else best) with h | h
    · rw [h]
      split
      · exact Or.inr (List.mem_cons_self _ _)
      · exact Or.inl rfl
    · exact Or.inr (List.mem_cons_of_mem _ h)

/-- The entry selected by _evict_oldest's argmin belongs to the cache. -/
theorem argminCreated_mem {α : Type} (l : List (String × CacheEntry α))
    (e : String × CacheEntry α) (h : argminCreated l = some e) : e ∈ l := by
  cases l with
  | nil => simp [argminCreated] at h
  | cons a rest =>
    rw [argminCreated, Option.some.injEq] at h
    rcases foldl_min_mem rest a with h' | h'
    · rw [h'] at h
      rw [← h]
      exact List.mem_cons_self _ _
    · rw [← h]
      exact List.mem_cons_of_mem _ h'

/-- A key absent from the cache is absent from any eraseP of it. -/
theorem hasKey_eraseP_false {α : Type} {l : List (String × CacheEntry α)} {k : String}
    (p : String × CacheEntry α → Bool) (h : hasKey l k = false) :
    hasKey (l.eraseP p) k = false := by
  rw [hasKey, List.any_eq_false] at h ⊢
  exact fun x hx => h x ((List.eraseP_sublist l).subset hx)

/-- C5: with the cache at capacity and a strictly oldest entry (k0, e0), a Set
with a fresh key removes exactly that oldest entry (whatever its remaining
TTL) and appends the new one; a Set with a present key evicts nothing and
replaces the entry in place. -/
theorem c5_cache_eviction {α : Type} (c : TTLCache α) (key : String) (v : α)
    (ttl : Option ℚ) (now : ℚ) (k0 : String) (e0 : CacheEntry α) :
    (c.cache.length = c.max_size →
      hasKey c.cache key = false →
      (k0, e0) ∈ c.cache →
      (∀ p ∈ c.cache, p ≠ (k0, e0) → e0.created_at < p.2.created_at) →
      (c.set key v ttl now).cache =
        c.cache.eraseP (fun p => p.1 == k0) ++
          [(key, ⟨v, now + ttl.getD c.ttl_seconds, now⟩)]) ∧
    (hasKey c.cache key = true →
      (c.set key v ttl now).cache =
        c.cache.map (fun p =>
          if p.1 == key then (key, ⟨v, now + ttl.getD c.ttl_seconds, now⟩) else p)) := by
  constructor
  · intro hlen hnew hmem hmin
    simp only [TTLCache.set]
    rw [if_pos ⟨le_of_eq hlen.symm, hnew⟩, evictOldest, argminCreated_eq c.cache k0 e0 hmem hmin,
      insertEntry, if_neg (by simp [hasKey_eraseP_false _ hnew])]
  · intro hkey
    simp only [TTLCache.set]
    rw [if_neg (by simp [hkey]), insertEntry, if_pos hkey]

/-- Witness for C5: a two-entry cache at capacity 2; the entry with the older
created_at ("b", created 3) is evicted even though it expires last. -/
theorem c5_cache_eviction_witness :
    (TTLCache.set ⟨2, 300, [("a", ⟨0, 100, 5⟩), ("b", ⟨1, 900, 3⟩)]⟩ "c" (7 : ℕ) none 10).cache =
      ([("a", (⟨0, 100, 5⟩ : CacheEntry ℕ)), ("b", ⟨1, 900, 3⟩)].eraseP (fun p => p.1 == "b") ++
        [("c", ⟨7, 10 + 300, 10⟩)]) :=
  (c5_cache_eviction ⟨2, 300, [("a", ⟨0, 100, 5⟩), ("b", ⟨1, 900, 3⟩)]⟩ "c" 7 none 10 "b"
    ⟨1, 900, 3⟩).1 (by decide) (by decide) (by decide) (by decide)

/-- _evict_oldest on a nonempty cache removes exactly one entry. -/
theorem length_evictOldest_add_one {α : Type} (l : List (String × CacheEntry α)) (h : l ≠ []) :
    (evictOldest l).length + 1 = l.length := by
  cases hl : argminCreated l with
  | none =>
    cases l with
    | nil => exact absurd rfl h
    | cons a r => simp [argminCreated] at hl
  | some e =>
    rw [evictOldest, hl]
    exact List.length_eraseP_add_one (argminCreated_mem l e hl) (by simp)

/-- One cache operation keeps the entry count within a positive capacity. -/
theorem applyOp_length_le {α : Type} (maxsz : ℕ) (h1 : 1 ≤ maxsz) (c : TTLCache α)
    (hm : c.max_size = maxsz) (hlen : c.cache.length ≤ maxsz) (op : CacheOp α) :
    (applyOp c op).max_size = maxsz ∧ (applyOp c op).cache.length ≤ maxsz := by
  cases op with
  | get k now =>
    simp only [applyOp, TTLCache.get]
    cases hf : c.cache.find? (fun p => p.1 == k) with
    | none => exact ⟨hm, hlen⟩
    | some p =>
      dsimp only
      split
      · exact ⟨hm, le_trans (List.eraseP_sublist _).length_le hlen⟩
      · exact ⟨hm, hlen⟩
  | set k v ttl now =>
    simp only [applyOp, TTLCache.set]
    by_cases hcond : c.max_size ≤ c.cache.length ∧ hasKey c.cache k = false
    · rw [if_pos hcond]
      have hne : c.cache ≠ [] := by
        intro hnil
        rw [hnil] at hcond
        simp only [List.length_nil] at hcond
        omega
      have heq := length_evictOldest_add_one c.cache hne
      have hk' : hasKey (evictOldest c.cache) k = false := by
        rw [evictOldest]
        cases hl : argminCreated c.cache with
        | none => exact hcond.2
        | some e => exact hasKey_eraseP_false _ hcond.2
      rw [insertEntry, if_neg (by simp [hk'])]
      refine ⟨hm, ?_⟩
      simp only [List.length_append, List.length_cons, List.length_nil]
      omega
    · rw [if_neg hcond]
      by_cases hk : hasKey c.cache k
      · rw [insertEntry, if_pos hk]
        exact ⟨hm, by simpa using hlen⟩
      · rw [insertEntry, if_neg (by simp [hk])]
        have hlt : ¬ (c.max_size ≤ c.cache.length) := fun hle => hcond ⟨hle, by simpa using hk⟩
        refine ⟨hm, ?_⟩
        simp only [List.length_append, List.length_cons, List.length_nil]
        omega
  | del k =>
    simp only [applyOp, TTLCache.deleteKey]
    split
    · exact ⟨hm, le_trans (List.eraseP_sublist _).length_le hlen⟩
    · exact ⟨hm, hlen⟩
  | clear =>
    simp only [applyOp]
    exact ⟨hm, by simp⟩

/-- Every sequence of cache operations keeps the entry count within a
positive capacity. -/
theorem runOps_length_le {α : Type} (maxsz : ℕ) (h1 : 1 ≤ maxsz) :
    ∀ (ops : List (CacheOp α)) (c : TTLCache α),
      c.max_size = maxsz → c.cache.length ≤ maxsz →
      (runOps c ops).cache.length ≤ maxsz := by
  intro ops
  induction ops with
  | nil => intro c hm hlen; exact hlen
  | cons op rest ih =>
    intro c hm hlen
    obtain ⟨hm', hlen'⟩ := applyOp_length_le maxsz h1 c hm hlen op
    exact ih (applyOp c op) hm' hlen'

/-- C7 (amended): for every configured capacity of at least one, starting
from a fresh cache, no sequence of Get, Set, Delete and Clear operations ever
makes the number of stored entries exceed the capacity. -/
theorem c7_capacity_bound (α : Type) (maxsz : ℕ) (ttl : ℚ) (ops : List (CacheOp α))
    (h : 1 ≤ maxsz) :
    (runOps (TTLCache.empty α maxsz ttl) ops).cache.length ≤ maxsz :=
  runOps_length_le maxsz h ops _ rfl (by simp [TTLCache.empty])

/-- Witness for C7: capacity 1 holds under two distinct-key Sets. -/
theorem c7_capacity_bound_witness :
    (runOps (TTLCache.empty ℕ 1 300) [.set "a" 0 none 0, .set "b" 1 none 1]).cache.length ≤ 1 :=
  c7_capacity_bound ℕ 1 300 [.set "a" 0 none 0, .set "b" 1 none 1] (by norm_num)

/-- Counterexample for C7 as stated: with configured capacity 0 a single Set
stores one entry, so the cache is not bounded for every configured capacity. -/
theorem c7_counterexample :
    ¬ (∀ (maxsz : ℕ) (ttl : ℚ) (ops : List (CacheOp ℕ)),
        (runOps (TTLCache.empty ℕ maxsz ttl) ops).cache.length ≤ maxsz) := by
  intro h
  exact absurd (h 0 300 [.set "k" 0 none 0]) (by decide)

/-! ## C6 -/

/-- Every group emitted by the find_duplicates loop contains its seed, hence
is nonempty. -/
theorem findDupsLoop_ne_nil (ps : List NormProduct) (t : ℚ) :
    ∀ (idxs visited : List ℕ) (g : List ℕ), g ∈ findDupsLoop ps t idxs visited → g ≠ [] := by
  intro idxs
  induction idxs with
  | nil =>
    intro visited g hg
    simp [findDupsLoop] at hg
  | cons i rest ih =>
    intro visited g hg
    rw [findDupsLoop] at hg
    by_cases hv : i ∈ visited
    · rw [if_pos hv] at hg
      exact ih _ g hg
    · rw [if_neg hv] at hg
      dsimp only at hg
      split at hg
      · rcases List.mem_cons.mp hg with rfl | hg
        · exact List.cons_ne_nil _ _
        · exact ih _ g hg
      · exact ih _ g hg

/-- Groups returned by find_duplicates are nonempty. -/
theorem find_duplicates_ne_nil (ps : List NormProduct) (t : ℚ) (g : List ℕ)
    (hg : g ∈ find_duplicates ps t) : g ≠ [] :=
  findDupsLoop_ne_nil ps t _ _ g hg

/-- Core of the merged-group invariant, on the member list: the group minimum
bounds every source price and is attained by one source entry. -/
theorem mergeAgg_spec (g0 : NormProduct) (grest : List NormProduct) :
    (∀ s ∈ mkSourceEntry g0 :: grest.map mkSourceEntry,
      pyMinQ g0.price (grest.map NormProduct.price) ≤ s.price) ∧
    ∃ s ∈ mkSourceEntry g0 :: grest.map mkSourceEntry,
      s.price = pyMinQ g0.price (grest.map NormProduct.price) := by
  obtain ⟨⟨hle1, hle2⟩, h3⟩ := pyMinQ_spec g0.price (grest.map NormProduct.price)
  constructor
  · intro s hs
    rcases List.mem_cons.mp hs with rfl | hs
    · exact hle1
    · obtain ⟨p, hp, rfl⟩ := List.mem_map.mp hs
      exact hle2 _ (List.mem_map_of_mem _ hp)
  · rcases h3 with h3 | h3
    · exact ⟨mkSourceEntry g0, List.mem_cons_self _ _, h3.symm⟩
    · obtain ⟨p, hp, hpe⟩ := List.mem_map.mp h3
      exact ⟨mkSourceEntry p, List.mem_cons_of_mem _ (List.mem_map_of_mem _ hp), hpe⟩

/-- The merged record of a (nonempty) group: one source per member, and
best_price is a lower bound of the source prices attained by one of them. -/
theorem mergeGroup_spec (ps : List NormProduct) (i : ℕ) (rest : List ℕ) :
    (mergeGroup ps (i :: rest)).sources ≠ [] ∧
    (∀ s ∈ (mergeGroup ps (i :: rest)).sources,
      (mergeGroup ps (i :: rest)).best_price ≤ s.price) ∧
    ∃ s ∈ (mergeGroup ps (i :: rest)).sources,
      s.price = (mergeGroup ps (i :: rest)).best_price := by
  obtain ⟨h1, h2⟩ := mergeAgg_spec (ps.getD i default) (rest.map fun j => ps.getD j default)
  exact ⟨List.cons_ne_nil _ _, h1, h2⟩

/-- C6: every aggregated product produced by merge_duplicates, whether a
merged duplicate group or a pass-through singleton, has a nonempty sources
list and satisfies best_price = min of the source prices (stated as: a lower
bound attained by some source). -/
theorem c6_best_price (ps : List NormProduct) (t : ℚ) (m : AggProduct)
    (hm : m ∈ merge_duplicates ps t) :
    m.sources ≠ [] ∧ (∀ s ∈ m.sources, m.best_price ≤ s.price) ∧
      ∃ s ∈ m.sources, s.price = m.best_price := by
  rw [merge_duplicates] at hm
  by_cases hps : ps = []
  · rw [if_pos hps] at hm
    simp at hm
  · rw [if_neg hps] at hm
    rcases List.mem_append.mp hm with hm | hm
    · obtain ⟨g, hg, rfl⟩ := List.mem_map.mp hm
      have hne := find_duplicates_ne_nil ps t g hg
      obtain ⟨i, rest, rfl⟩ : ∃ i rest, g = i :: rest := by
        cases g with
        | nil => exact absurd rfl hne
        | cons i rest => exact ⟨i, rest, rfl⟩
      exact mergeGroup_spec ps i rest
    · obtain ⟨i, _, rfl⟩ := List.mem_map.mp hm
      refine ⟨by simp [mkSingleton], ?_, ?_⟩
      · intro s hs
        obtain rfl : s = mkSourceEntry (ps.getD i default) := by
          simpa [mkSingleton] using hs
        exact le_refl _
      · exact ⟨mkSourceEntry (ps.getD i default), by simp [mkSingleton], rfl⟩

/-- A test product with a canonical title and a price. -/
def tpp (ct : String) (pr : ℚ) : NormProduct :=
  ⟨"", "", ct, "", pr, none, "", none, none, none, none, none⟩

/-- Two listings of the same product at prices 1999 and 1899. -/
def earbudsList : List NormProduct :=
  [tpp "acme earbuds" 1999, tpp "acme earbuds" 1899]

/-- Witness for C6: the merged earbuds group has best_price attained (1899)
and bounding both source prices. -/
theorem c6_best_price_witness :
    (mergeGroup earbudsList [0, 1]).sources ≠ [] ∧
    (∀ s ∈ (mergeGroup earbudsList [0, 1]).sources,
      (mergeGroup earbudsList [0, 1]).best_price ≤ s.price) ∧
    ∃ s ∈ (mergeGroup earbudsList [0, 1]).sources,
      s.price = (mergeGroup earbudsList [0, 1]).best_price :=
  c6_best_price earbudsList (17 / 20) _ (by decide)

/-! ## C3 -/

/-- Canonical-title similarity between two list positions, as compared by the
find_duplicates inner loop. -/
def simIdx (ps : List NormProduct) (i j : ℕ) : ℚ :=
  calculate_similarity (ps.getD i default).canonical_title (ps.getD j default).canonical_title

/-- The inner scan of find_duplicates makes identical decisions under two
thresholds that no scanned similarity separates. -/
theorem collectGroup_congr (ps : List NormProduct) (t1 t2 : ℚ) (titleI : String) :
    ∀ (js visited : List ℕ),
      (∀ j ∈ js, (t1 ≤ calculate_similarity titleI (ps.getD j default).canonical_title ↔
        t2 ≤ calculate_similarity titleI (ps.getD j default).canonical_title)) →
      collectGroup ps t1 titleI js visited = collectGroup ps t2 titleI js visited := by
  intro js
  induction js with
  | nil => intro visited _; rfl
  | cons j js' ih =>
    intro visited h
    have hj := h j (List.mem_cons_self _ _)
    have hrest := fun x hx => h x (List.mem_cons_of_mem _ hx)
    simp only [collectGroup]
    by_cases hv : j ∈ visited
    · rw [if_pos hv, if_pos hv]
      exact ih _ hrest
    · rw [if_neg hv, if_neg hv]
      by_cases hs : t1 ≤ calculate_similarity titleI (ps.getD j default).canonical_title
      · rw [if_pos hs, if_pos (hj.mp hs), ih _ hrest]
      · rw [if_neg hs, if_neg (fun h2 => hs (hj.mpr h2)), ih _ hrest]

/-- The whole greedy pass of find_duplicates produces identical groups under
two thresholds that no pairwise similarity separates. -/
theorem findDupsLoop_congr (ps : List NormProduct) (t1 t2 : ℚ)
    (hiff : ∀ i, i < ps.length → ∀ j, j < ps.length →
      (t1 ≤ simIdx ps i j ↔ t2 ≤ simIdx ps i j)) :
    ∀ (idxs visited : List ℕ), (∀ i ∈ idxs, i < ps.length) →
      findDupsLoop ps t1 idxs visited = findDupsLoop ps t2 idxs visited := by
  intro idxs
  induction idxs with
  | nil => intro visited _; rfl
  | cons i rest ih =>
    intro visited hbound
    have hi := hbound i (List.mem_cons_self _ _)
    have hrest := fun x hx => hbound x (List.mem_cons_of_mem _ hx)
    simp only [findDupsLoop]
    by_cases hv : i ∈ visited
    · rw [if_pos hv, if_pos hv]
      exact ih _ hrest
    · rw [if_neg hv, if_neg hv]
      have hcg : collectGroup ps t1 (ps.getD i default).canonical_title
          (List.range' (i + 1) (ps.length - (i + 1))) (i :: visited) =
          collectGroup ps t2 (ps.getD i default).canonical_title
          (List.range' (i + 1) (ps.length - (i + 1))) (i :: visited) := by
        apply collectGroup_congr
        intro j hj
        have hjlt : j < ps.length := by
          have := List.mem_range'_1.mp hj
          omega
        exact hiff i hi j hjlt
      rw [hcg, ih _ hrest]

/-- C3 (amended): for thresholds t1 < t2 such that no pairwise canonical-title
similarity of the input lies in the half-open gap [t1, t2), the greedy
clustering finds at least as many duplicate groups with t1 as with t2 (in fact
the same groups).  Without the gap condition the greedy pass is not monotone
(see the counterexample). -/
theorem c3_threshold_monotone (ps : List NormProduct) (t1 t2 : ℚ) (h12 : t1 < t2)
    (hgap : ∀ i, i < ps.length → ∀ j, j < ps.length →
      ¬ (t1 ≤ simIdx ps i j ∧ simIdx ps i j < t2)) :
    (find_duplicates ps t2).length ≤ (find_duplicates ps t1).length := by
  have hiff : ∀ i, i < ps.length → ∀ j, j < ps.length →
      (t1 ≤ simIdx ps i j ↔ t2 ≤ simIdx ps i j) := by
    intro i hi j hj
    constructor
    · intro h1
      by_contra h2
      exact hgap i hi j hj ⟨h1, lt_of_not_le h2⟩
    · intro h2
      exact le_trans (le_of_lt h12) h2
  have heq := findDupsLoop_congr ps t1 t2 hiff (List.range ps.length) []
    (fun i hi => List.mem_range.mp hi)
  rw [find_duplicates, find_duplicates, heq]

/-- Witness for C3: three products with similarities 1 and 0 only, so no
similarity lies in [1/4, 1/2). -/
theorem c3_threshold_monotone_witness :
    (find_duplicates [tp "abc", tp "abc", tp "xyz"] (1 / 2)).length ≤
      (find_duplicates [tp "abc", tp "abc", tp "xyz"] (1 / 4)).length :=
  c3_threshold_monotone [tp "abc", tp "abc", tp "xyz"] (1 / 4) (1 / 2) (by norm_num) (by decide)

/-- Counterexample for C3 as stated: at threshold 1/2 a broad seed ("aabbccdd",
similarity 2/3 to all others) absorbs everything into one duplicate group,
while at threshold 3/4 the two identical pairs form two duplicate groups, so
the looser threshold finds fewer groups. -/
theorem c3_counterexample :
    ¬ (∀ (ps : List NormProduct) (t1 t2 : ℚ), t1 < t2 →
        (find_duplicates ps t2).length ≤ (find_duplicates ps t1).length) := by
  intro h
  exact absurd
    (h [tp "aabbccdd", tp "aabb", tp "aabb", tp "ccdd", tp "ccdd"] (1 / 2) (3 / 4) (by norm_num))
    (by decide)

/-! ## C2 -/

/-- Values parsed by the restricted float() are nonnegative (digit/dot strings
have no sign). -/
theorem pyFloat_nonneg {l : List Char} {q : ℚ} (h : pyFloat l = some q) : 0 ≤ q := by
  rw [pyFloat] at h
  split at h
  · obtain rfl := Option.some.inj h
    positivity
  · exact absurd h (by simp)

/-- String prices always normalize to a nonnegative value. -/
theorem normalize_price_str_nonneg (s : String) (cur : String) :
    0 ≤ (normalize_price (.str s) cur).1 := by
  rw [normalize_price]
  split
  · exact le_refl (0 : ℚ)
  · cases hr : findNumRun (priceStrip s.data) with
    | none => exact le_refl (0 : ℚ)
    | some run =>
      dsimp only
      cases hf : pyFloat run with
      | none => exact le_refl (0 : ℚ)
      | some v => exact pyFloat_nonneg hf

/-- Every rating value returned by normalize_rating is nonnegative. -/
theorem normalize_rating_ok_nonneg :
    ∀ (v : PyVal) (q : ℚ), normalize_rating v = .ok (some q) → 0 ≤ q := by
  intro v q h
  cases v with
  | num q' =>
    rw [normalize_rating] at h
    split_ifs at h with h1 h2 h3 h4 <;>
      simp only [PyResult.ok.injEq, Option.some.injEq, reduceCtorEq] at h <;> subst h
    · linarith
    · linarith
    · exact le_min (by norm_num) (le_max_left 0 q')
    · exact le_min (by norm_num) (le_max_left 0 q')
  | str s =>
    rw [normalize_rating] at h
    by_cases hemp : s = ""
    · rw [if_pos hemp] at h
      exact absurd h (by simp)
    · rw [if_neg hemp] at h
      revert h
      cases hp : (if s.data.contains '%' then findPercentAux s.data [] else none) with
      | some g =>
        dsimp only
        cases hf : pyFloat g with
        | some v =>
          dsimp only
          intro h
          simp only [PyResult.ok.injEq, Option.some.injEq] at h
          subst h
          have := pyFloat_nonneg hf
          linarith
        | none => intro h; exact absurd h (by simp)
      | none =>
        dsimp only
        cases ho : findOutOfAux s.data with
        | some p =>
          obtain ⟨g1, g2⟩ := p
          dsimp only
          cases hf1 : pyFloat g1 with
          | none => intro h; exact absurd h (by simp)
          | some r =>
            cases hf2 : pyFloat g2 with
            | none => intro h; exact absurd h (by simp)
            | some m =>
              dsimp only
              intro h
              split_ifs at h with hm <;>
                simp only [PyResult.ok.injEq, Option.some.injEq, reduceCtorEq] at h
              subst h
              exact mul_nonneg (div_nonneg (pyFloat_nonneg hf1) (le_of_lt hm)) (by norm_num)
        | none =>
          dsimp only
          cases hn : findNumRun s.data with
          | none => intro h; exact absurd h (by simp)
          | some run =>
            dsimp only
            cases hf : pyFloat run with
            | none => intro h; exact absurd h (by simp)
            | some r =>
              dsimp only
              intro h
              split_ifs at h with hr <;>
                simp only [PyResult.ok.injEq, Option.some.injEq, reduceCtorEq] at h <;> subst h
              · have := pyFloat_nonneg hf
                linarith
              · exact le_min (by norm_num) (le_max_left 0 r)

/-- Numeric ratings always normalize into [0, 5]. -/
theorem normalize_rating_num_bound :
    ∀ (q' q : ℚ), normalize_rating (.num q') = .ok (some q) → 0 ≤ q ∧ q ≤ 5 := by
  intro q' q h
  rw [normalize_rating] at h
  split_ifs at h with h1 h2 h3 h4 <;>
    simp only [PyResult.ok.injEq, Option.some.injEq, reduceCtorEq] at h <;> subst h
  · constructor <;> linarith
  · constructor <;> linarith
  · exact ⟨le_min (by norm_num) (le_max_left 0 q'), min_le_left _ _⟩
  · exact ⟨le_min (by norm_num) (le_max_left 0 q'), min_le_left _ _⟩

/-- Projections of a successful normalize_product: the price comes from
normalize_price on the resolved price value, and the rating from
normalize_rating on the raw rating field. -/
theorem normalize_product_ok (product : RawProduct) (source : String) (np : NormProduct)
    (h : normalize_product product source = .ok np) :
    np.price = (normalize_price (priceValueOf product) "INR").1 ∧
    normalize_rating_opt product.rating = .ok np.rating := by
  rw [normalize_product] at h
  dsimp only at h
  revert h
  cases hr : normalize_rating_opt product.rating with
  | exn => intro h; exact absurd h (by simp)
  | ok rating =>
    dsimp only
    intro h
    simp only [PyResult.ok.injEq] at h
    subst h
    exact ⟨rfl, rfl⟩

/-- C2 (amended): a normalized product has price at least 0 whenever the raw
price field resolves to a string (or to a nonnegative number: a negative
numeric raw price passes through); the rating, whenever present, is at least
0, and lies in [0, 5] whenever the raw rating is numeric (percentage and
"X out of Y" strings can exceed the scale and then yield ratings above 5). -/
theorem c2_normalized_invariant (product : RawProduct) (source : String) (np : NormProduct)
    (h : normalize_product product source = .ok np) :
    ((∀ s, priceValueOf product = .str s → 0 ≤ np.price) ∧
     (∀ q, priceValueOf product = .num q → 0 ≤ q → 0 ≤ np.price)) ∧
    (∀ q, np.rating = some q → 0 ≤ q) ∧
    (∀ q' q, product.rating = some (.num q') → np.rating = some q → 0 ≤ q ∧ q ≤ 5) := by
  obtain ⟨hprice, hrating⟩ := normalize_product_ok product source np h
  refine ⟨⟨?_, ?_⟩, ?_, ?_⟩
  · intro s hs
    rw [hprice, hs]
    exact normalize_price_str_nonneg s "INR"
  · intro q hq hq0
    rw [hprice, hq]
    exact hq0
  · intro q hq
    cases hrat : product.rating with
    | none =>
      rw [hrat] at hrating
      rw [normalize_rating_opt] at hrating
      simp only [PyResult.ok.injEq] at hrating
      rw [← hrating] at hq
      exact absurd hq (by simp)
    | some v =>
      rw [hrat] at hrating
      rw [normalize_rating_opt] at hrating
      rw [hq] at hrating
      exact normalize_rating_ok_nonneg v q hrating
  · intro q' q hq' hq
    rw [hq'] at hrating
    rw [normalize_rating_opt] at hrating
    rw [hq] at hrating
    exact normalize_rating_num_bound q' q hrating

/-- A raw record witnessing the amended invariant: a rupee price string and a
numeric rating. -/
def rawW : RawProduct :=
  { emptyRaw with price := some (.str "₹1,299"), rating := some (.num 4) }

/-- The normalized product of rawW. -/
def npW : NormProduct :=
  ⟨"", "", "", "amazon", 1299, none, "INR", some 4, none, none, none, none⟩

/-- Witness for C2: the concrete record rawW normalizes with nonnegative
price and rating 4 in [0, 5]. -/
theorem c2_normalized_invariant_witness :
    0 ≤ npW.price ∧ (0 ≤ (4 : ℚ) ∧ (4 : ℚ) ≤ 5) := by
  have h := c2_normalized_invariant rawW "amazon" npW (by decide)
  exact ⟨h.1.1 "₹1,299" (by decide), h.2.2 4 4 rfl rfl⟩

/-- Counterexample for C2 as stated: a record with numeric price -3 and rating
string "600%" normalizes to price -3 < 0 and rating 30 > 5. -/
theorem c2_counterexample :
    ¬ (∀ (product : RawProduct) (source : String) (np : NormProduct),
        normalize_product product source = .ok np →
        0 ≤ np.price ∧ ∀ q, np.rating = some q → 0 ≤ q ∧ q ≤ 5) := by
  intro h
  have hb := h { emptyRaw with price := some (.num (-3)), rating := some (.str "600%") } "amazon"
    ⟨"", "", "", "amazon", -3, none, "INR", some 30, none, none, none, none⟩ (by decide)
  have h30 := (hb.2 30 rfl).2
  norm_num at h30

/-! ## C10 -/

/-- Python str.lower (ASCII model) is idempotent: lowering an already-lowered
character changes nothing. -/
theorem pyLower_fix (c : Char) : pyLower (pyLower c) = pyLower c := by
  by_cases h : 65 ≤ c.toNat ∧ c.toNat ≤ 90
  · have hval : (Char.ofNat (c.toNat + 32)).toNat = c.toNat + 32 := by
      have hlt : c.toNat + 32 < 0xd800 := by omega
      simp [Char.ofNat, Nat.isValidChar, hlt, Char.ofNatAux]
      rfl
    have h1 : pyLower c = Char.ofNat (c.toNat + 32) := by rw [pyLower, if_pos h]
    rw [h1, pyLower, if_neg (by rw [hval]; omega)]
  · have h1 : pyLower c = c := by rw [pyLower, if_neg h]
    rw [h1, h1]

/-- A map that fixes every member of a list fixes the list. -/
theorem list_map_id_of_mem {α : Type} (f : α → α) :
    ∀ (l : List α), (∀ c ∈ l, f c = c) → l.map f = l := by
  intro l
  induction l with
  | nil => intro _; rfl
  | cons a as ih =>
    intro h
    rw [List.map_cons, h a (List.mem_cons_self _ _),
      ih (fun c hc => h c (List.mem_cons_of_mem _ hc))]

/-- Characters of a space-join are the joining spaces and the token
characters. -/
theorem mem_joinSpace {c : Char} :
    ∀ (ts : List (List Char)), c ∈ joinSpace ts → c = ' ' ∨ ∃ t ∈ ts, c ∈ t := by
  intro ts
  induction ts with
  | nil => intro h; simp [joinSpace] at h
  | cons t ts' ih =>
    cases ts' with
    | nil =>
      intro h
      exact Or.inr ⟨t, List.mem_cons_self _ _, h⟩
    | cons t2 ts2 =>
      intro h
      rw [joinSpace] at h
      rcases List.mem_append.mp h with h | h
      · exact Or.inr ⟨t, List.mem_cons_self _ _, h⟩
      · rcases List.mem_cons.mp h with rfl | h
        · exact Or.inl rfl
        · rcases ih h with h | ⟨t', ht', hc⟩
          · exact Or.inl h
          · exact Or.inr ⟨t', List.mem_cons_of_mem _ ht', hc⟩

/-- The split scan consumes a space-free chunk into the accumulator. -/
theorem splitWSAux_token :
    ∀ (tok rest acc : List Char), (∀ c ∈ tok, pyIsSpace c = false) →
      splitWSAux (tok ++ rest) acc = splitWSAux rest (tok.reverse ++ acc) := by
  intro tok
  induction tok with
  | nil => intro rest acc _; simp
  | cons c tok' ih =>
    intro rest acc h
    have hc := h c (List.mem_cons_self _ _)
    rw [List.cons_append, splitWSAux, if_neg (by simp [hc]),
      ih rest (c :: acc) (fun x hx => h x (List.mem_cons_of_mem _ hx))]
    simp

/-- Every token produced by the split scan is nonempty and consists of
space-free characters satisfying any property holding on the scanned input and
the accumulator. -/
theorem splitWSAux_sound (Q : Char → Prop) :
    ∀ (l acc : List Char), (∀ c ∈ l, pyIsSpace c = false → Q c) →
      (∀ c ∈ acc, pyIsSpace c = false ∧ Q c) →
      ∀ tok ∈ splitWSAux l acc, tok ≠ [] ∧ ∀ c ∈ tok, pyIsSpace c = false ∧ Q c := by
  intro l
  induction l with
  | nil =>
    intro acc _ hacc tok htok
    rw [splitWSAux] at htok
    split at htok
    · simp at htok
    · next hne =>
      obtain rfl : tok = acc.reverse := by simpa using htok
      refine ⟨by simpa using hne, ?_⟩
      intro c hc
      exact hacc c (List.mem_reverse.mp hc)
  | cons c cs ih =>
    intro acc hl hacc tok htok
    have hcs : ∀ x ∈ cs, pyIsSpace x = false → Q x :=
      fun x hx => hl x (List.mem_cons_of_mem _ hx)
    rw [splitWSAux] at htok
    by_cases hsp : pyIsSpace c = true
    · rw [if_pos hsp] at htok
      split at htok
      · exact ih [] hcs (by simp) tok htok
      · next hne =>
        rcases List.mem_cons.mp htok with rfl | htok
        · refine ⟨by simpa using hne, ?_⟩
          intro x hx
          exact hacc x (List.mem_reverse.mp hx)
        · exact ih [] hcs (by simp) tok htok
    · rw [if_neg hsp] at htok
      have hc : pyIsSpace c = false := by simpa using hsp
      refine ih (c :: acc) hcs ?_ tok htok
      intro x hx
      rcases List.mem_cons.mp hx with rfl | hx
      · exact ⟨hc, hl x (List.mem_cons_self _ _) hc⟩
      · exact hacc x hx

/-- Splitting undoes space-joining on nonempty space-free tokens. -/
theorem splitWS_joinSpace :
    ∀ (ts : List (List Char)),
      (∀ tok ∈ ts, tok ≠ [] ∧ ∀ c ∈ tok, pyIsSpace c = false) →
      splitWS (joinSpace ts) = ts := by
  intro ts
  induction ts with
  | nil => intro _; rfl
  | cons t ts' ih =>
    intro h
    have ht := h t (List.mem_cons_self _ _)
    cases ts' with
    | nil =>
      show splitWSAux (joinSpace [t]) [] = [t]
      have : joinSpace [t] = t ++ [] := by simp [joinSpace]
      rw [this, splitWSAux_token t [] [] ht.2, splitWSAux,
        if_neg (by simpa using ht.1)]
      simp
    | cons t2 ts2 =>
      show splitWSAux (joinSpace (t :: t2 :: ts2)) [] = t :: t2 :: ts2
      rw [joinSpace, splitWSAux_token t _ [] ht.2, splitWSAux,
        if_pos (by decide), if_neg (by simpa using ht.1)]
      have hrec := ih (fun tok htok => h tok (List.mem_cons_of_mem _ htok))
      rw [splitWS] at hrec
      rw [hrec]
      simp

/-- C10: canonicalize_title is idempotent; canonicalizing an already canonical
title leaves it unchanged. -/
theorem c10_canonicalize_idempotent (t : String) :
    canonicalize_title (canonicalize_title t) = canonicalize_title t := by
  have key : ∀ (ts0 : List (List Char)),
      (∀ tok ∈ ts0, tok ≠ [] ∧ keepToken tok = true ∧
        ∀ c ∈ tok, pyIsSpace c = false ∧ isWordChar c = true ∧ pyLower c = c) →
      canonicalize_title (String.mk (joinSpace ts0)) = String.mk (joinSpace ts0) := by
    intro ts0 hts
    rw [canonicalize_title]
    by_cases h1 : String.mk (joinSpace ts0) = ""
    · rw [if_pos h1]
      exact h1.symm
    · rw [if_neg h1]
      show String.mk
          (joinSpace ((splitWS (stripPunct ((joinSpace ts0).map pyLower))).filter keepToken)) =
        String.mk (joinSpace ts0)
      have step1 : (joinSpace ts0).map pyLower = joinSpace ts0 := by
        apply list_map_id_of_mem
        intro c hc
        rcases mem_joinSpace ts0 hc with rfl | ⟨t', ht', hc'⟩
        · decide
        · exact (((hts t' ht').2.2) c hc').2.2
      have step2 : stripPunct (joinSpace ts0) = joinSpace ts0 := by
        apply list_map_id_of_mem
        intro c hc
        rcases mem_joinSpace ts0 hc with rfl | ⟨t', ht', hc'⟩
        · decide
        · rw [if_pos]
          rw [(((hts t' ht').2.2) c hc').2.1]
          simp
      have step3 : splitWS (joinSpace ts0) = ts0 := by
        apply splitWS_joinSpace
        intro tok htok
        exact ⟨(hts tok htok).1, fun c hc => (((hts tok htok).2.2) c hc).1⟩
      have step4 : ts0.filter keepToken = ts0 :=
        List.filter_eq_self.mpr (fun tok htok => (hts tok htok).2.1)
      rw [step1, step2, step3, step4]
  by_cases h0 : t = ""
  · subst h0
    rfl
  · have expand : canonicalize_title t =
        String.mk (joinSpace
          ((splitWS (stripPunct (t.data.map pyLower))).filter keepToken)) := by
      rw [canonicalize_title, if_neg h0]
    have hsrc : ∀ c ∈ stripPunct (t.data.map pyLower),
        pyIsSpace c = false → isWordChar c = true ∧ pyLower c = c := by
      intro c hc hns
      obtain ⟨d', hd', rfl⟩ := List.mem_map.mp hc
      by_cases hw : (isWordChar d' || pyIsSpace d') = true
      · rw [if_pos hw] at hns ⊢
        obtain ⟨d, _, rfl⟩ := List.mem_map.mp hd'
        refine ⟨?_, pyLower_fix d⟩
        rcases Bool.or_eq_true_iff.mp hw with hw | hw
        · exact hw
        · rw [hw] at hns
          exact absurd hns (by simp)
      · rw [if_neg hw] at hns
        exact absurd hns (by decide)
    have htoks : ∀ tok ∈ (splitWS (stripPunct (t.data.map pyLower))).filter keepToken,
        tok ≠ [] ∧ keepToken tok = true ∧
          ∀ c ∈ tok, pyIsSpace c = false ∧ isWordChar c = true ∧ pyLower c = c := by
      intro tok htok
      have hbase := splitWSAux_sound (fun c => isWordChar c = true ∧ pyLower c = c)
        (stripPunct (t.data.map pyLower)) [] hsrc (by simp) tok
        (List.mem_of_mem_filter htok)
      exact ⟨hbase.1, List.of_mem_filter htok,
        fun c hc => ⟨(hbase.2 c hc).1, (hbase.2 c hc).2.1, (hbase.2 c hc).2.2⟩⟩
    rw [expand]
    exact key _ htoks

example : normalize_rating (.str "4.2 out of 5") = .ok (some (21 / 5)) := by decide
example : normalize_rating (.str "84%") = .ok (some (21 / 5)) := by decide
example : normalize_rating (.num (42 / 5)) = .ok (some (21 / 5)) := by decide
example : normalize_rating (.str "garbage") = .ok none := by decide
example : normalize_rating (.num 84) = .ok (some (21 / 5)) := by decide
example : normalize_rating (.str "84") = .ok (some 5) := by decide
example : normalize_rating (.num 200) = .ok (some 5) := by decide
example : normalize_rating (.str "4.2/5") = .ok (some (21 / 5)) := by decide
example : normalize_rating (.str "..%") = .exn := by decide
example : normalize_rating (.num 0) = .ok none := by decide

end PriceSavvy
